import Mathlib

/-!
Verification of the `zipstream` package of spondanai/filestreamkit.

The Go source (`src/zipstream/zipstream.go`) is shallowly embedded below.
Strings are modelled as Lean `String` (byte-level operations work on the
underlying `List Char`; all inputs of interest are ASCII, where Go's byte
operations and `List Char` operations coincide).  The platform is Unix
(`os.PathSeparator = '/'`, `filepath.IsAbs p = strings.HasPrefix p "/"`,
`filepath.Clean = path.Clean`), matching the environment the repository is
built and tested on.

External collaborators (the `archive/zip` writer, the `encoding/base64`
encoder, the filesystem and the cancellation context) are modelled as
oracles: the archive writer is an abstract record sink, the filesystem maps
a path to an open outcome and a read script, and the context is a
poll-countdown (`Option Nat`: `some k` means the k-th poll of `ctx.Err()`
and every later poll reports cancellation, `none` means never cancelled).
-/

namespace FileStreamKit

/-! ### Byte-level primitives modelling Go's `strings` package -/

/-- Go `strings.HasPrefix` on character lists. -/
def startsList : List Char → List Char → Bool
  | _, [] => true
  | [], _ :: _ => false
  | h :: hs, n :: ns => if h = n then startsList hs ns else false

/-- Go `strings.HasSuffix` on character lists. -/
def endsList (hay suf : List Char) : Bool :=
  startsList hay.reverse suf.reverse

/-- Go `strings.Contains` on character lists. -/
def containsList : List Char → List Char → Bool
  | [], needle => needle.isEmpty
  | h :: t, needle => startsList (h :: t) needle || containsList t needle

/-- Go `strings.HasPrefix`. -/
def hasPrefixGo (s pre : String) : Bool := startsList s.data pre.data

/-- Go `strings.HasSuffix`. -/
def hasSuffixGo (s suf : String) : Bool := endsList s.data suf.data

/-- Go `strings.Contains`. -/
def containsGo (s sub : String) : Bool := containsList s.data sub.data

/-- Go `strings.ReplaceAll s "\\" "/"` (single-character replacement). -/
def replaceBackslashes (s : String) : String :=
  ⟨s.data.map (fun c => if c = '\\' then '/' else c)⟩

/-! ### Go `path/filepath` on Unix -/

/-- Whether a character list denotes a rooted (absolute) Unix path. -/
def isAbsChars : List Char → Bool
  | c :: _ => decide (c = '/')
  | [] => false

/-- Go `filepath.IsAbs` on Unix. -/
def isAbsGo (s : String) : Bool := isAbsChars s.data

/-- Split a character list on `'/'`.  `splitSlash "a/b" = [['a'], ['b']]`;
empty components are kept (`splitSlash "/a" = [[], ['a']]`). -/
def splitSlash : List Char → List (List Char)
  | [] => [[]]
  | c :: rest =>
    if c = '/' then [] :: splitSlash rest
    else
      match splitSlash rest with
      | [] => [[c]]
      | h :: t => (c :: h) :: t

/-- Join components with `'/'` separators (inverse of `splitSlash` on
slash-free nonempty components). -/
def joinSlash : List (List Char) → List Char
  | [] => []
  | [c] => c
  | c :: c2 :: rest => c ++ '/' :: joinSlash (c2 :: rest)

/-- One step of Go `path.Clean`'s element processing: skip empty and `"."`
elements, let `".."` pop the last element when possible (dropped at the root
of a rooted path, kept at the front of a relative path), push anything else. -/
def cleanStep (rooted : Bool) (stack : List (List Char)) (c : List Char) : List (List Char) :=
  if c = [] ∨ c = ['.'] then stack
  else if c = ['.', '.'] then
    match stack.getLast? with
    | some l => if l = ['.', '.'] then stack ++ [c] else stack.dropLast
    | none => if rooted then [] else [c]
  else stack ++ [c]

/-- Go `path.Clean` (which equals `filepath.Clean` on Unix) on character
lists. -/
def cleanChars (s : List Char) : List Char :=
  if isAbsChars s then
    '/' :: joinSlash ((splitSlash s).foldl (cleanStep true) [])
  else
    match (splitSlash s).foldl (cleanStep false) [] with
    | [] => ['.']
    | st => joinSlash st

/-- Go `filepath.Clean` on Unix. -/
def cleanStr (s : String) : String := ⟨cleanChars s.data⟩

/-- Go `filepath.Join` restricted to two elements, as used by `SafeJoin`:
join the non-empty elements with `'/'` and clean the result. -/
def joinGo (a b : String) : String :=
  if a = "" then (if b = "" then "" else cleanStr b)
  else if b = "" then cleanStr a
  else cleanStr ⟨a.data ++ '/' :: b.data⟩

/-- Go `filepath.Abs` on Unix: clean an absolute path, otherwise join it to
the working directory `cwd`.  (`os.Getwd` always returns an absolute path;
its failure branch, which `SafeJoin` merely forwards, is not modelled.) -/
def absGo (cwd s : String) : String :=
  if isAbsGo s then cleanStr s else joinGo cwd s

/-- Error produced by `SafeJoin` when the joined path escapes the base. -/
inductive PathError where
  | escape (rel : String)
  deriving Repr, DecidableEq

/-- `SafeJoin` from `src/zipstream/zipstream.go` (lines 67-88): joins
`baseDir` and `relPath`, ensuring the result stays within `baseDir`.
`cwd` is the process working directory consumed by `filepath.Abs`. -/
def SafeJoin (cwd baseDir relPath : String) : Except PathError String :=
  if baseDir = "" then .ok relPath
  else
    let combined := joinGo baseDir relPath
    let absBase := absGo cwd baseDir
    let absCombined := absGo cwd combined
    let baseWithSep := if hasSuffixGo absBase "/" then absBase else absBase ++ "/"
    if absCombined ≠ absBase ∧ ¬ (startsList absCombined.data baseWithSep.data = true) then
      .error (.escape relPath)
    else .ok absCombined

/-! ### Data model of the zipstream package -/

/-- `Entry` from `src/zipstream/zipstream.go`: a logical archive name and a
source locator. -/
structure Entry where
  Name : String
  Path : String
  deriving Repr, DecidableEq

/-- `Options` from `src/zipstream/zipstream.go`.  `NowFunc` is modelled by
the timestamp it would return; `Filter` stays a Lean function. -/
structure OptionsM where
  CompressionLevel : Int
  SkipMissing : Bool
  Filter : Option (Entry → Bool)
  NowFunc : Option Nat
  BaseDir : String

/-- The Go zero value `&Options{}` substituted for a nil options pointer. -/
def defaultOptions : OptionsM :=
  { CompressionLevel := 0, SkipMissing := false, Filter := none, NowFunc := none, BaseDir := "" }

/-- The fixed `defaultCompressedExt` set of the source (line 32-35). -/
def defaultCompressedExt : List String :=
  [".zip", ".rar", ".7z", ".jpg", ".jpeg", ".png", ".gif", ".pdf",
   ".mp4", ".mov", ".avi", ".mkv", ".webp", ".docx", ".xlsx", ".pptx"]

/-- Helper for `extGo`: walk the reversed name until a separator (no
extension) or a dot (extension found). -/
def extGoAux : List Char → List Char → List Char
  | [], _ => []
  | c :: rest, acc =>
    if c = '/' then []
    else if c = '.' then '.' :: acc
    else extGoAux rest (c :: acc)

/-- Go `filepath.Ext`: the suffix beginning at the final dot in the final
path element, empty if there is no dot. -/
def extGo (s : String) : String := ⟨extGoAux s.data.reverse []⟩

/-- `isPreCompressed` (lines 37-40): membership of the name's extension in
the fixed set (Go map lookup). -/
def isPreCompressed (name : String) : Bool :=
  decide (extGo name ∈ defaultCompressedExt)

/-- Zip compression methods used by the source (`zip.Store` / `zip.Deflate`). -/
inductive ZMethod where
  | store
  | deflate
  deriving Repr, DecidableEq

/-- The method selection of `StreamZipToBase64Writer` (lines 177-185): the
header starts as `Deflate` and becomes `Store` when `isPreCompressed`. -/
def chosenMethod (name : String) : ZMethod :=
  if isPreCompressed name then .store else .deflate

/-- `flate.HuffmanOnly = -2`, `flate.BestCompression = 9`,
`flate.BestSpeed = 1`: the level fallback of lines 134-137. -/
def effectiveLevel (lvl : Int) : Int :=
  if lvl < -2 ∨ lvl > 9 then 1 else lvl

/-- The errors `zipstream` can return, one constructor per `return`/wrap
site of the source.  Wrapped causes are preserved as arguments. -/
inductive ZErr where
  | entryNameEmpty
  | badEntryName (name : String)
  | badAbsoluteEntryName (name : String)
  | duplicateEntryName (name : String)
  | badPath (path : String) (inner : PathError)
  | openFailedNotExist (path : String)
  | openFailedOther (path : String)
  | writeEntryCancelled (name : String)
  | writeEntryReadErr (name : String)
  | writeEntryDestErr (name : String)
  | cancelled
  | closeZipErr
  | closeB64Err
  deriving Repr, DecidableEq

/-- Whether an error comes from `validateEntries`. -/
def ZErr.isValidation : ZErr → Bool
  | .entryNameEmpty => true
  | .badEntryName _ => true
  | .badAbsoluteEntryName _ => true
  | .duplicateEntryName _ => true
  | _ => false

/-- `validateEntries` (lines 42-64) with the `seen` set made explicit.
The checks run in source order: empty name, unsafe name on the
separator-normalized form, colon / platform-absolute name, duplicate. -/
def validateAux (seen : List String) : List Entry → Option ZErr
  | [] => none
  | e :: rest =>
    if e.Name = "" then some .entryNameEmpty
    else
      let n := replaceBackslashes e.Name
      if hasPrefixGo n "/" || containsGo n "../" then some (.badEntryName e.Name)
      else if containsGo e.Name ":" || isAbsGo e.Name then some (.badAbsoluteEntryName e.Name)
      else if e.Name ∈ seen then some (.duplicateEntryName e.Name)
      else validateAux (e.Name :: seen) rest

/-- `validateEntries` (lines 42-64). -/
def validateEntries (entries : List Entry) : Option ZErr :=
  validateAux [] entries

/-! ### The cancellable byte copier -/

/-- Outcome of one `src.Read` call: bytes plus `io.EOF`, another error, or
neither. -/
inductive RRes where
  | ok
  | eof
  | ioErr
  deriving Repr, DecidableEq

/-- Result of `copyWithContext`. -/
inductive CRes where
  | success
  | cancelled
  | writeErr
  | readErr
  deriving Repr, DecidableEq

/-- Observable trace of one `copyWithContext` call: the bytes successfully
written to the sink, the number of reads performed, the outcome, and the
remaining cancellation fuel. -/
structure CopyOut where
  written : List Nat
  reads : Nat
  res : CRes
  fuel : Option Nat
  deriving Repr, DecidableEq

/-- Advance the poll clock by one `ctx.Err()` call. -/
def decFuel : Option Nat → Option Nat
  | none => none
  | some n => some (n - 1)

/-- `copyWithContext` (lines 92-112).  `src` is the source's read script
(an exhausted script reads as `(0 bytes, io.EOF)`); `dstFails` scripts the
sink, its k-th element telling whether the k-th write fails (exhausted means
success).  The context is polled before every read. -/
def copyWithContext (fuel : Option Nat) (src : List (List Nat × RRes)) (dstFails : List Bool) : CopyOut :=
  match fuel with
  | some 0 => ⟨[], 0, .cancelled, some 0⟩
  | _ =>
    let fuel1 := decFuel fuel
    match src with
    | [] => ⟨[], 1, .success, fuel1⟩
    | (d, r) :: rest =>
      if d ≠ [] ∧ dstFails.headD false then ⟨[], 1, .writeErr, fuel1⟩
      else
        match r with
        | .eof => ⟨d, 1, .success, fuel1⟩
        | .ioErr => ⟨d, 1, .readErr, fuel1⟩
        | .ok =>
          let out := copyWithContext fuel1 rest (if d ≠ [] then dstFails.tail else dstFails)
          ⟨d ++ out.written, out.reads + 1, out.res, out.fuel⟩

/-! ### The archive stream assembler -/

/-- Outcome of `os.Open` on a locator: missing (`os.ErrNotExist`), failing
for another reason, or a file. -/
inductive OpenResult where
  | notExist
  | otherErr
  | file (reads : List (List Nat × RRes)) (mtime : Option Nat)

/-- The world an invocation runs against: working directory, filesystem,
wall clock, and whether the two finalization closes fail. -/
structure World where
  cwd : String
  fs : String → OpenResult
  now : Nat
  closeZipFails : Bool
  closeB64Fails : Bool

/-- One archive record as written by the abstract `archive/zip` writer:
header fields plus the entry bytes streamed into it. -/
structure ArchRecord where
  name : String
  method : ZMethod
  mtime : Nat
  content : List Nat
  deriving Repr, DecidableEq

/-- Result of the entry loop of `StreamZipToBase64Writer`. -/
structure LoopOut where
  err : Option ZErr
  opened : List String
  records : List ArchRecord
  deriving Repr

/-- Whether the configured inclusion predicate accepts an entry (a nil
`Filter` accepts everything). -/
def passesFilter (f : Option (Entry → Bool)) (e : Entry) : Bool :=
  match f with
  | none => true
  | some p => p e

/-- Source-locator resolution (lines 159-166): the path itself unless a
base directory is configured, in which case `SafeJoin` decides. -/
def resolvePath (w : World) (o : OptionsM) (p : String) : Except PathError String :=
  if o.BaseDir = "" then .ok p else SafeJoin w.cwd o.BaseDir p

/-- The timestamp used for an entry (lines 176-182): the source's mtime when
`Stat` succeeds, else the configured clock, else wall-clock time. -/
def entryMtime (w : World) (o : OptionsM) (mtime : Option Nat) : Nat :=
  match mtime with
  | some t => t
  | none => o.NowFunc.getD w.now

/-- The per-entry loop of `StreamZipToBase64Writer` (lines 152-199).
`opened` accumulates every locator passed to `os.Open`, `records` the
archive records created so far.  The loop returns at the first error. -/
def zipLoop (w : World) (o : OptionsM) (fuel : Option Nat) (entries : List Entry)
    (opened : List String) (records : List ArchRecord) : LoopOut :=
  match entries with
  | [] => ⟨none, opened, records⟩
  | e :: rest =>
    match fuel with
    | some 0 => ⟨some .cancelled, opened, records⟩
    | _ =>
      let fuel1 := decFuel fuel
      if ¬ passesFilter o.Filter e then zipLoop w o fuel1 rest opened records
      else
        match resolvePath w o e.Path with
        | .error pe => ⟨some (.badPath e.Path pe), opened, records⟩
        | .ok p =>
          let opened1 := opened ++ [p]
          match w.fs p with
          | .notExist =>
            if o.SkipMissing then zipLoop w o fuel1 rest opened1 records
            else ⟨some (.openFailedNotExist p), opened1, records⟩
          | .otherErr => ⟨some (.openFailedOther p), opened1, records⟩
          | .file reads mtime =>
            let co := copyWithContext fuel1 reads []
            let r : ArchRecord :=
              ⟨e.Name, chosenMethod e.Name, entryMtime w o mtime, co.written⟩
            match co.res with
            | .success => zipLoop w o co.fuel rest opened1 (records ++ [r])
            | .cancelled => ⟨some (.writeEntryCancelled e.Name), opened1, records ++ [r]⟩
            | .readErr => ⟨some (.writeEntryReadErr e.Name), opened1, records ++ [r]⟩
            | .writeErr => ⟨some (.writeEntryDestErr e.Name), opened1, records ++ [r]⟩

/-- Observable outcome of one `StreamZipToBase64Writer` invocation. -/
structure RunResult where
  err : Option ZErr
  opened : List String
  records : List ArchRecord
  zipClosed : Bool
  b64Closed : Bool
  deriving Repr

/-- `StreamZipToBase64Writer` (lines 123-201).  Validation runs before the
encoder and archive writer exist, so a validation failure performs no I/O
and no close; otherwise the loop runs and the deferred block closes the
archive writer then the base64 encoder, keeping only the earliest error. -/
def StreamZipToBase64Writer (w : World) (fuel : Option Nat) (entries : List Entry)
    (opts : Option OptionsM) : RunResult :=
  let o := opts.getD defaultOptions
  match validateEntries entries with
  | some ve => ⟨some ve, [], [], false, false⟩
  | none =>
    let lo := zipLoop w o fuel entries [] []
    let e1 := lo.err
    let e2 := if w.closeZipFails ∧ e1 = none then some .closeZipErr else e1
    let e3 := if w.closeB64Fails ∧ e2 = none then some .closeB64Err else e2
    ⟨e3, lo.opened, lo.records, true, true⟩

/-- `StreamZipToBase64` (lines 114-121): run the writer against a fresh
in-memory buffer with a background context; on error return the empty
string (modelled `none`), else the buffer's accumulated content (modelled
by the record list the writer produced). -/
def StreamZipToBase64 (w : World) (entries : List Entry) (opts : Option OptionsM) :
    Option (List ArchRecord) × Option ZErr :=
  let r := StreamZipToBase64Writer w none entries opts
  match r.err with
  | some e => (none, some e)
  | none => (some r.records, none)

/-- The bytes a source's read script delivers when every read succeeds. -/
def scriptContent (reads : List (List Nat × RRes)) : List Nat :=
  (reads.map Prod.fst).flatten

/-- The archive records a fully successful run is expected to produce:
filter-passing entries whose locator resolves and opens, in input order. -/
def expectedRecords (w : World) (o : OptionsM) (entries : List Entry) : List ArchRecord :=
  entries.filterMap fun e =>
    if passesFilter o.Filter e then
      match resolvePath w o e.Path with
      | .ok p =>
        match w.fs p with
        | .file reads mtime =>
          some ⟨e.Name, chosenMethod e.Name, entryMtime w o mtime, scriptContent reads⟩
        | _ => none
      | .error _ => none
    else none

example : cleanStr "/a/b/../c" = "/a/c" := by decide
example : cleanStr "//../secret" = "/secret" := by decide
example : cleanStr "a/../secret" = "secret" := by decide
example : cleanStr "" = "." := by decide
example : cleanStr "../../x" = "../../x" := by decide
example : joinGo "a" "../secret" = "secret" := by decide
example : SafeJoin "/root" "/" "../secret" = .ok "/secret" := rfl
example : SafeJoin "/root" "a" "../secret" = .error (.escape "../secret") := rfl
example : SafeJoin "/root" "secret" "../secret" = .ok "/root/secret" := rfl
example : SafeJoin "/root" "" "x" = .ok "x" := rfl
example : SafeJoin "/root" "base" "sub/file.txt" = .ok "/root/base/sub/file.txt" := rfl

/-! ### Validation lemmas -/

/-- The disjunction of the two unsafe-name checks of `validateEntries`
(lines 50-57): leading separator or `"../"` substring on the
separator-normalized name, or a colon or platform-absolute original name. -/
def nameFlagged (n : String) : Bool :=
  (hasPrefixGo (replaceBackslashes n) "/" || containsGo (replaceBackslashes n) "../")
  || (containsGo n ":" || isAbsGo n)

theorem validateAux_isValidation : ∀ (es : List Entry) (seen : List String) (ve : ZErr),
    validateAux seen es = some ve → ve.isValidation = true := by
  intro es
  induction es with
  | nil => intro seen ve h; simp [validateAux] at h
  | cons e rest ih =>
    intro seen ve h
    simp only [validateAux] at h
    split at h
    · injection h with h; subst h; rfl
    · split at h
      · injection h with h; subst h; rfl
      · split at h
        · injection h with h; subst h; rfl
        · split at h
          · injection h with h; subst h; rfl
          · exact ih _ _ h

theorem validateAux_some_of_bad : ∀ (es : List Entry) (seen : List String),
    (∃ e ∈ es, e.Name = "" ∨ nameFlagged e.Name = true) →
    ∃ ve, validateAux seen es = some ve := by
  intro es
  induction es with
  | nil => intro seen h; simp at h
  | cons e rest ih =>
    intro seen h
    simp only [validateAux]
    by_cases h1 : e.Name = ""
    · exact ⟨_, by rw [if_pos h1]⟩
    rw [if_neg h1]
    by_cases h2 : (hasPrefixGo (replaceBackslashes e.Name) "/"
        || containsGo (replaceBackslashes e.Name) "../") = true
    · exact ⟨_, by rw [if_pos h2]⟩
    rw [if_neg h2]
    by_cases h3 : (containsGo e.Name ":" || isAbsGo e.Name) = true
    · exact ⟨_, by rw [if_pos h3]⟩
    rw [if_neg h3]
    by_cases h4 : e.Name ∈ seen
    · exact ⟨_, by rw [if_pos h4]⟩
    rw [if_neg h4]
    rcases h with ⟨x, hx, hbad⟩
    rcases List.mem_cons.mp hx with rfl | hx'
    · rcases hbad with hbad | hbad
      · exact absurd hbad h1
      · simp [nameFlagged, h2, h3] at hbad
    · exact ih _ ⟨x, hx', hbad⟩

theorem validateAux_some_of_dup : ∀ (es : List Entry) (seen : List String),
    (¬ (es.map Entry.Name).Nodup ∨ ∃ n ∈ es.map Entry.Name, n ∈ seen) →
    ∃ ve, validateAux seen es = some ve := by
  intro es
  induction es with
  | nil => intro seen h; simp at h
  | cons e rest ih =>
    intro seen h
    simp only [validateAux]
    by_cases h1 : e.Name = ""
    · exact ⟨_, by rw [if_pos h1]⟩
    rw [if_neg h1]
    by_cases h2 : (hasPrefixGo (replaceBackslashes e.Name) "/"
        || containsGo (replaceBackslashes e.Name) "../") = true
    · exact ⟨_, by rw [if_pos h2]⟩
    rw [if_neg h2]
    by_cases h3 : (containsGo e.Name ":" || isAbsGo e.Name) = true
    · exact ⟨_, by rw [if_pos h3]⟩
    rw [if_neg h3]
    by_cases h4 : e.Name ∈ seen
    · exact ⟨_, by rw [if_pos h4]⟩
    rw [if_neg h4]
    apply ih
    rcases h with h | ⟨n, hn, hns⟩
    · rw [List.map_cons, List.nodup_cons] at h
      push_neg at h
      by_cases hmem : e.Name ∈ rest.map Entry.Name
      · exact Or.inr ⟨e.Name, hmem, List.mem_cons_self _ _⟩
      · exact Or.inl (h hmem)
    · rcases List.mem_cons.mp hn with rfl | hn'
      · exact absurd hns h4
      · exact Or.inr ⟨n, hn', List.mem_cons_of_mem _ hns⟩

theorem validateAux_dup_kind : ∀ (es : List Entry) (seen : List String),
    (∀ e ∈ es, e.Name ≠ "" ∧ nameFlagged e.Name = false) →
    (¬ (es.map Entry.Name).Nodup ∨ ∃ n ∈ es.map Entry.Name, n ∈ seen) →
    ∃ n, validateAux seen es = some (.duplicateEntryName n) := by
  intro es
  induction es with
  | nil => intro seen _ h; simp at h
  | cons e rest ih =>
    intro seen hgood h
    have hge := hgood e (List.mem_cons_self _ _)
    have h1 : e.Name ≠ "" := hge.1
    have hflag := Bool.or_eq_false_iff.mp hge.2
    have h2 := hflag.1
    have h3 := hflag.2
    simp only [validateAux]
    rw [if_neg h1, if_neg (by simp [h2]), if_neg (by simp [h3])]
    by_cases h4 : e.Name ∈ seen
    · exact ⟨e.Name, by rw [if_pos h4]⟩
    rw [if_neg h4]
    apply ih (e.Name :: seen) (fun x hx => hgood x (List.mem_cons_of_mem _ hx))
    rcases h with h | ⟨n, hn, hns⟩
    · rw [List.map_cons, List.nodup_cons] at h
      push_neg at h
      by_cases hmem : e.Name ∈ rest.map Entry.Name
      · exact Or.inr ⟨e.Name, hmem, List.mem_cons_self _ _⟩
      · exact Or.inl (h hmem)
    · rcases List.mem_cons.mp hn with rfl | hn'
      · exact absurd hns h4
      · exact Or.inr ⟨n, hn', List.mem_cons_of_mem _ hns⟩

/-- The writer's observable result when validation fails: the validation
error is returned, nothing is opened, no record and no close happens. -/
theorem writer_validation_failure (w : World) (fuel : Option Nat) (entries : List Entry)
    (opts : Option OptionsM) (ve : ZErr) (h : validateEntries entries = some ve) :
    StreamZipToBase64Writer w fuel entries opts =
      ⟨some ve, [], [], false, false⟩ := by
  simp [StreamZipToBase64Writer, h]

/-! ### Concrete world used by witnesses and counterexamples -/

/-- A small concrete world: two readable files under `/data`, everything
else missing, both closes succeeding. -/
def demoWorld : World where
  cwd := "/root"
  fs := fun p =>
    if p = "/data/a.txt" then .file [([104, 105], .ok)] (some 11)
    else if p = "/data/b.png" then .file [([1, 2], .ok)] none
    else if p = "/data/locked" then .otherErr
    else .notExist
  now := 7
  closeZipFails := false
  closeB64Fails := false

/-! ### Claim C1 -/

/-- C1 counterexample: the entry name `".."` is a `..` path segment, yet
`StreamZipToBase64Writer` accepts it, opens its source and succeeds —
the claimed validation failure with no I/O does not happen. -/
theorem c1_counterexample :
    (StreamZipToBase64Writer demoWorld none [Entry.mk ".." "/data/a.txt"] none).err = none ∧
    (StreamZipToBase64Writer demoWorld none [Entry.mk ".." "/data/a.txt"] none).opened
      = ["/data/a.txt"] :=
  ⟨rfl, rfl⟩

/-- C1 (amended): for every entry list in which some entry's logical name,
after normalizing separators, contains `"../"` as a substring (a `..`
segment followed by a separator) or begins with a path separator, or
contains a colon, or is absolute by platform convention,
`StreamZipToBase64Writer` fails with a validation error and opens no source
(no I/O on any entry, no record, no close). -/
theorem c1_flagged_names_rejected (w : World) (fuel : Option Nat) (entries : List Entry)
    (opts : Option OptionsM) (h : ∃ e ∈ entries, nameFlagged e.Name = true) :
    ∃ ve, validateEntries entries = some ve ∧ ve.isValidation = true ∧
      StreamZipToBase64Writer w fuel entries opts = ⟨some ve, [], [], false, false⟩ := by
  obtain ⟨x, hx, hbad⟩ := h
  obtain ⟨ve, hve⟩ := validateAux_some_of_bad entries [] ⟨x, hx, Or.inr hbad⟩
  exact ⟨ve, hve, validateAux_isValidation _ _ _ hve, writer_validation_failure _ _ _ _ _ hve⟩

/-- Witness for C1 at the concrete entry name `"../x"`. -/
theorem c1_flagged_names_rejected_witness :
    (∃ e ∈ [Entry.mk "../x" "p"], nameFlagged e.Name = true) ∧
    ∃ ve, validateEntries [Entry.mk "../x" "p"] = some ve ∧ ve.isValidation = true ∧
      StreamZipToBase64Writer demoWorld none [Entry.mk "../x" "p"] none
        = ⟨some ve, [], [], false, false⟩ :=
  ⟨by decide, c1_flagged_names_rejected demoWorld none _ none (by decide)⟩

/-! ### Claim C2 -/

/-- C2: an entry list containing an empty name, a name the validator's
unsafety checks reject, or two entries sharing a logical name makes
`StreamZipToBase64Writer` return the validation error with zero side
effects: no source opened, no record created, no byte written (the encoder
and archive writer are never even constructed, so no close happens); and
when every name individually passes, a shared name yields specifically the
duplicate-name error. -/
theorem c2_validation_zero_side_effects (w : World) (fuel : Option Nat) (entries : List Entry)
    (opts : Option OptionsM) :
    (((∃ e ∈ entries, e.Name = "" ∨ nameFlagged e.Name = true) ∨
        ¬ (entries.map Entry.Name).Nodup) →
      ∃ ve, validateEntries entries = some ve ∧ ve.isValidation = true ∧
        StreamZipToBase64Writer w fuel entries opts = ⟨some ve, [], [], false, false⟩) ∧
    ((∀ e ∈ entries, e.Name ≠ "" ∧ nameFlagged e.Name = false) →
      ¬ (entries.map Entry.Name).Nodup →
      ∃ n, validateEntries entries = some (.duplicateEntryName n)) := by
  constructor
  · intro h
    have hsome : ∃ ve, validateAux [] entries = some ve := by
      rcases h with h | h
      · exact validateAux_some_of_bad entries [] h
      · exact validateAux_some_of_dup entries [] (Or.inl h)
    obtain ⟨ve, hve⟩ := hsome
    exact ⟨ve, hve, validateAux_isValidation _ _ _ hve, writer_validation_failure _ _ _ _ _ hve⟩
  · intro hgood hdup
    exact validateAux_dup_kind entries [] hgood (Or.inl hdup)

/-- Witness for C2 at a concrete duplicate-name list. -/
theorem c2_validation_zero_side_effects_witness :
    (¬ ([Entry.mk "a" "p", Entry.mk "a" "q"].map Entry.Name).Nodup) ∧
    (∃ ve, validateEntries [Entry.mk "a" "p", Entry.mk "a" "q"] = some ve ∧
      ve.isValidation = true ∧
      StreamZipToBase64Writer demoWorld none [Entry.mk "a" "p", Entry.mk "a" "q"] none
        = ⟨some ve, [], [], false, false⟩) ∧
    (∃ n, validateEntries [Entry.mk "a" "p", Entry.mk "a" "q"]
        = some (.duplicateEntryName n)) :=
  ⟨by decide,
   (c2_validation_zero_side_effects demoWorld none [Entry.mk "a" "p", Entry.mk "a" "q"] none).1
     (Or.inr (by decide)),
   (c2_validation_zero_side_effects demoWorld none [Entry.mk "a" "p", Entry.mk "a" "q"] none).2
     (by decide) (by decide)⟩

/-! ### Claim C5 -/

/-- C5: once validation passes, both the archive writer and the base64
encoder are closed unconditionally, and the returned error is the earliest
failure across the entry loop and the two finalization steps: a loop error
always wins, a zip-close failure is reported only with a clean loop, and a
base64-close failure only with a clean loop and a clean zip close. -/
theorem c5_first_error_wins (w : World) (fuel : Option Nat) (entries : List Entry)
    (o : OptionsM) (h : validateEntries entries = none) :
    (StreamZipToBase64Writer w fuel entries (some o)).zipClosed = true ∧
    (StreamZipToBase64Writer w fuel entries (some o)).b64Closed = true ∧
    (∀ l, (zipLoop w o fuel entries [] []).err = some l →
      (StreamZipToBase64Writer w fuel entries (some o)).err = some l) ∧
    ((zipLoop w o fuel entries [] []).err = none → w.closeZipFails = true →
      (StreamZipToBase64Writer w fuel entries (some o)).err = some .closeZipErr) ∧
    ((zipLoop w o fuel entries [] []).err = none → w.closeZipFails = false →
      w.closeB64Fails = true →
      (StreamZipToBase64Writer w fuel entries (some o)).err = some .closeB64Err) ∧
    ((zipLoop w o fuel entries [] []).err = none → w.closeZipFails = false →
      w.closeB64Fails = false →
      (StreamZipToBase64Writer w fuel entries (some o)).err = none) := by
  simp only [StreamZipToBase64Writer, h, Option.getD_some]
  refine ⟨trivial, trivial, ?_, ?_, ?_, ?_⟩
  · intro l hl; simp [hl]
  · intro hle hz; simp [hle, hz]
  · intro hle hz hb; simp [hle, hz, hb]
  · intro hle hz hb; simp [hle, hz, hb]

/-- Witness for C5 at a concrete successful run. -/
theorem c5_first_error_wins_witness :
    validateEntries [Entry.mk "a" "/data/a.txt"] = none ∧
    (StreamZipToBase64Writer demoWorld none [Entry.mk "a" "/data/a.txt"]
      (some defaultOptions)).zipClosed = true ∧
    (StreamZipToBase64Writer demoWorld none [Entry.mk "a" "/data/a.txt"]
      (some defaultOptions)).err = none :=
  ⟨rfl,
   (c5_first_error_wins demoWorld none [Entry.mk "a" "/data/a.txt"] defaultOptions rfl).1,
   (c5_first_error_wins demoWorld none [Entry.mk "a" "/data/a.txt"] defaultOptions rfl).2.2.2.2.2
     rfl rfl rfl⟩

/-! ### Claim C8 -/

/-- C8 counterexample: with a pre-signaled context and an empty (valid)
entry list the operation succeeds instead of failing with `Cancelled`. -/
theorem c8_counterexample :
    (StreamZipToBase64Writer demoWorld (some 0) [] none).err = none :=
  rfl

/-- C8 (amended): for every valid NON-EMPTY entry list, a cancellation
signal already set before any entry is processed makes the operation fail
with the `Cancelled` error; nothing is opened and no entry data reaches the
destination — only the two finalization closes (the empty archive framing)
happen. -/
theorem c8_presignal_cancelled (w : World) (e : Entry) (rest : List Entry)
    (opts : Option OptionsM) (h : validateEntries (e :: rest) = none) :
    StreamZipToBase64Writer w (some 0) (e :: rest) opts =
      ⟨some .cancelled, [], [], true, true⟩ := by
  simp [StreamZipToBase64Writer, h, zipLoop]

/-- Witness for C8 at a concrete one-entry list. -/
theorem c8_presignal_cancelled_witness :
    validateEntries [Entry.mk "a" "/data/a.txt"] = none ∧
    StreamZipToBase64Writer demoWorld (some 0) [Entry.mk "a" "/data/a.txt"] none =
      ⟨some .cancelled, [], [], true, true⟩ :=
  ⟨rfl, c8_presignal_cancelled demoWorld (Entry.mk "a" "/data/a.txt") [] none rfl⟩

/-! ### Claim C10 -/

/-- C10: `StreamZipToBase64` fails exactly when `StreamZipToBase64Writer`
with a background (never-cancelled) context and a fresh buffer fails; on
failure it returns the empty output, discarding any partial content, and on
success it returns exactly what the writer produced in the buffer. -/
theorem c10_convenience_refines_writer (w : World) (entries : List Entry)
    (opts : Option OptionsM) :
    ((StreamZipToBase64 w entries opts).2 = (StreamZipToBase64Writer w none entries opts).err) ∧
    ((StreamZipToBase64Writer w none entries opts).err ≠ none →
      (StreamZipToBase64 w entries opts).1 = none) ∧
    ((StreamZipToBase64Writer w none entries opts).err = none →
      (StreamZipToBase64 w entries opts).1
        = some (StreamZipToBase64Writer w none entries opts).records) := by
  unfold StreamZipToBase64
  rcases hres : (StreamZipToBase64Writer w none entries opts).err with _ | e <;> simp [hres]

/-- Witness for C10 at a concrete successful run. -/
theorem c10_convenience_refines_writer_witness :
    (StreamZipToBase64 demoWorld [Entry.mk "a" "/data/a.txt"] none).2 = none ∧
    (StreamZipToBase64 demoWorld [Entry.mk "a" "/data/a.txt"] none).1
      = some (StreamZipToBase64Writer demoWorld none [Entry.mk "a" "/data/a.txt"] none).records :=
  ⟨((c10_convenience_refines_writer demoWorld [Entry.mk "a" "/data/a.txt"] none).1).trans rfl,
   ((c10_convenience_refines_writer demoWorld [Entry.mk "a" "/data/a.txt"] none).2.2) rfl⟩

/-! ### Claim C6 -/

/-- C6: the cancellable copier polls the signal immediately before each
read — the equations hold at every recursive call, i.e. for every remaining
source and sink state.  A signaled poll aborts at once with the
cancellation result, performing zero reads and writing nothing; a failing
write of a successfully read chunk returns the write error after exactly
that one read, independent of the rest of the source; an end-of-source read
(exhausted script, or a final chunk carrying `io.EOF`) terminates with
success. -/
theorem c6_copier_contract :
    (∀ (src : List (List Nat × RRes)) (ws : List Bool),
      copyWithContext (some 0) src ws = ⟨[], 0, .cancelled, some 0⟩) ∧
    (∀ (fuel : Option Nat) (d : List Nat) (r : RRes) (rest : List (List Nat × RRes))
        (ws : List Bool), fuel ≠ some 0 → d ≠ [] →
      copyWithContext fuel ((d, r) :: rest) (true :: ws) = ⟨[], 1, .writeErr, decFuel fuel⟩) ∧
    (∀ (fuel : Option Nat) (ws : List Bool), fuel ≠ some 0 →
      copyWithContext fuel [] ws = ⟨[], 1, .success, decFuel fuel⟩) ∧
    (∀ (fuel : Option Nat) (d : List Nat) (rest : List (List Nat × RRes)) (ws : List Bool),
      fuel ≠ some 0 → (d = [] ∨ ws.headD false = false) →
      copyWithContext fuel ((d, RRes.eof) :: rest) ws = ⟨d, 1, .success, decFuel fuel⟩) := by
  have hnoW : ∀ (d : List Nat) (ws : List Bool), (d = [] ∨ ws.headD false = false) →
      ¬ d = [] → ws.head?.getD false = false := by
    intro d ws hw hd
    rcases hw with rfl | hw
    · exact absurd rfl hd
    · cases ws
      · rfl
      · simpa [List.headD] using hw
  refine ⟨fun src ws => by simp [copyWithContext], ?_, ?_, ?_⟩
  · intro fuel d r rest ws hf hd
    rcases fuel with _ | n
    · simp [copyWithContext, hd, decFuel]
    · rcases n with _ | n
      · exact absurd rfl hf
      · simp [copyWithContext, hd, decFuel]
  · intro fuel ws hf
    rcases fuel with _ | n
    · simp [copyWithContext, decFuel]
    · rcases n with _ | n
      · exact absurd rfl hf
      · simp [copyWithContext, decFuel]
  · intro fuel d rest ws hf hw
    rcases fuel with _ | n
    · simp [copyWithContext, decFuel]
      exact hnoW d ws hw
    · rcases n with _ | n
      · exact absurd rfl hf
      · simp [copyWithContext, decFuel]
        exact hnoW d ws hw

/-- Witness for C6 at concrete scripts. -/
theorem c6_copier_contract_witness :
    copyWithContext (some 0) [([1], RRes.ok)] [] = ⟨[], 0, .cancelled, some 0⟩ ∧
    copyWithContext none [([1], RRes.ok)] [true] = ⟨[], 1, .writeErr, none⟩ ∧
    copyWithContext none [] [] = ⟨[], 1, .success, none⟩ ∧
    copyWithContext none [([1], RRes.eof)] [] = ⟨[1], 1, .success, none⟩ :=
  ⟨c6_copier_contract.1 _ _,
   c6_copier_contract.2.1 none [1] .ok [] [] (by decide) (by decide),
   c6_copier_contract.2.2.1 none [] (by decide),
   c6_copier_contract.2.2.2 none [1] [] [] (by decide) (by decide)⟩

/-! ### Claim C9 -/

/-- C9: the chosen compression method is `Store` exactly when the name's
extension (case-sensitive, as resolved by `filepath.Ext`) belongs to the
fixed pre-compressed set, and `Deflate` otherwise; in particular `.png` is
stored, `.txt` is deflated, and the uppercase `.PNG` is deflated. -/
theorem c9_method_policy :
    (∀ name : String, chosenMethod name = .store ↔ extGo name ∈ defaultCompressedExt) ∧
    chosenMethod "a.png" = .store ∧
    chosenMethod "a.txt" = .deflate ∧
    chosenMethod "a.PNG" = .deflate := by
  refine ⟨fun name => ?_, by decide, by decide, by decide⟩
  by_cases h : extGo name ∈ defaultCompressedExt <;>
    simp [chosenMethod, isPreCompressed, h]

/-! ### Loop lemmas for the success and skip-missing paths -/

theorem decFuel_none : decFuel none = none := rfl

theorem copy_none_allOk : ∀ (src : List (List Nat × RRes)), (∀ c ∈ src, c.2 = RRes.ok) →
    copyWithContext none src [] = ⟨scriptContent src, src.length + 1, .success, none⟩ := by
  intro src
  induction src with
  | nil => intro _; simp [copyWithContext, scriptContent, decFuel]
  | cons c rest ih =>
    intro h
    obtain ⟨d, r⟩ := c
    have hr : r = RRes.ok := h (d, r) (List.mem_cons_self _ _)
    subst hr
    have hrest := ih (fun x hx => h x (List.mem_cons_of_mem _ hx))
    simp [copyWithContext, decFuel, hrest, scriptContent]

/-- One pass of the entry loop when every filter-passing entry resolves and
either opens with an all-successful read script or is missing while
skip-missing is on: the loop succeeds and appends exactly the expected
records. -/
theorem zipLoop_ok_general (w : World) (o : OptionsM) :
    ∀ (es : List Entry) (opened : List String) (records : List ArchRecord),
    (∀ e ∈ es, passesFilter o.Filter e = true →
      ∃ p, resolvePath w o e.Path = .ok p ∧
        ((w.fs p = .notExist ∧ o.SkipMissing = true) ∨
         ∃ reads mtime, w.fs p = .file reads mtime ∧ ∀ c ∈ reads, c.2 = RRes.ok)) →
    (zipLoop w o none es opened records).err = none ∧
    (zipLoop w o none es opened records).records = records ++ expectedRecords w o es := by
  intro es
  induction es with
  | nil => intro opened records _; simp [zipLoop, expectedRecords]
  | cons e rest ih =>
    intro opened records h
    have hrest := fun op rec =>
      ih op rec (fun x hx => h x (List.mem_cons_of_mem _ hx))
    by_cases hf : passesFilter o.Filter e = true
    · obtain ⟨p, hp, hcase⟩ := h e (List.mem_cons_self _ _) hf
      rcases hcase with ⟨hfs, hskip⟩ | ⟨reads, mtime, hfs, hok⟩
      · simp only [zipLoop, hf, decFuel_none, hp, hfs, hskip, not_true,
          if_false, ite_true, ite_false]
        refine ⟨(hrest (opened ++ [p]) records).1, ?_⟩
        rw [(hrest (opened ++ [p]) records).2]
        simp [expectedRecords, List.filterMap_cons, hf, hp, hfs]
      · have hco := copy_none_allOk reads hok
        simp only [zipLoop, hf, decFuel_none, hp, hfs, hco, not_true,
          if_false, ite_true, ite_false]
        obtain ⟨h1, h2⟩ := hrest (opened ++ [p])
          (records ++ [ArchRecord.mk e.Name (chosenMethod e.Name)
            (entryMtime w o mtime) (scriptContent reads)])
        refine ⟨h1, ?_⟩
        rw [h2]
        simp [expectedRecords, List.filterMap_cons, hf, hp, hfs, List.append_assoc]
    · have hf0 : passesFilter o.Filter e = false := by
        revert hf; cases passesFilter o.Filter e <;> simp
      simp only [zipLoop, hf0, decFuel_none, Bool.false_eq_true, not_false_iff, ite_true]
      refine ⟨(hrest opened records).1, ?_⟩
      rw [(hrest opened records).2]
      simp [expectedRecords, List.filterMap_cons, hf0]

theorem expectedRecords_names (w : World) (o : OptionsM) :
    ∀ es : List Entry,
    (∀ e ∈ es, passesFilter o.Filter e = true →
      ∃ p, resolvePath w o e.Path = .ok p ∧ ∃ reads mtime, w.fs p = .file reads mtime) →
    (expectedRecords w o es).map ArchRecord.name
      = (es.filter (fun e => passesFilter o.Filter e)).map Entry.Name := by
  intro es
  induction es with
  | nil => intro _; rfl
  | cons e rest ih =>
    intro h
    have hrest := ih (fun x hx => h x (List.mem_cons_of_mem _ hx))
    by_cases hf : passesFilter o.Filter e = true
    · obtain ⟨p, hp, reads, mtime, hfs⟩ := h e (List.mem_cons_self _ _) hf
      simp only [expectedRecords] at hrest ⊢
      simp [List.filterMap_cons, List.filter_cons, hf, hp, hfs, hrest]
    · have hf0 : passesFilter o.Filter e = false := by
        revert hf; cases passesFilter o.Filter e <;> simp
      simp only [expectedRecords] at hrest ⊢
      simp [List.filterMap_cons, List.filter_cons, hf0, hrest]

/-! ### Claim C4 -/

/-- C4: for every code-valid entry list (validation passes, which holds in
particular for unique spec-safe names) with no cancellation, whose
filter-passing entries all resolve and open onto all-successful read
scripts, and with working finalization, the operation succeeds and the
archive contains exactly the non-filtered entries — name, chosen method,
resolved timestamp and streamed bytes — in input order. -/
theorem c4_success_archive (w : World) (o : OptionsM) (entries : List Entry)
    (hval : validateEntries entries = none)
    (hsrc : ∀ e ∈ entries, passesFilter o.Filter e = true →
      ∃ p, resolvePath w o e.Path = .ok p ∧
        ∃ reads mtime, w.fs p = .file reads mtime ∧ ∀ c ∈ reads, c.2 = RRes.ok)
    (hz : w.closeZipFails = false) (hb : w.closeB64Fails = false) :
    (StreamZipToBase64Writer w none entries (some o)).err = none ∧
    (StreamZipToBase64Writer w none entries (some o)).records = expectedRecords w o entries ∧
    (expectedRecords w o entries).map ArchRecord.name
      = (entries.filter (fun e => passesFilter o.Filter e)).map Entry.Name := by
  have hloop := zipLoop_ok_general w o entries [] [] (by
    intro e he hf
    obtain ⟨p, h1, reads, mtime, h2, h3⟩ := hsrc e he hf
    exact ⟨p, h1, Or.inr ⟨reads, mtime, h2, h3⟩⟩)
  have hnames := expectedRecords_names w o entries (by
    intro e he hf
    obtain ⟨p, h1, reads, mtime, h2, _⟩ := hsrc e he hf
    exact ⟨p, h1, reads, mtime, h2⟩)
  refine ⟨?_, ?_, hnames⟩
  · simp [StreamZipToBase64Writer, hval, hz, hb, hloop.1]
  · simp [StreamZipToBase64Writer, hval, hz, hb, hloop.1, hloop.2]

/-- Witness for C4 at a concrete two-entry run against `demoWorld`. -/
theorem c4_success_archive_witness :
    (StreamZipToBase64Writer demoWorld none
      [Entry.mk "a.txt" "/data/a.txt", Entry.mk "b.png" "/data/b.png"]
      (some defaultOptions)).err = none ∧
    (StreamZipToBase64Writer demoWorld none
      [Entry.mk "a.txt" "/data/a.txt", Entry.mk "b.png" "/data/b.png"]
      (some defaultOptions)).records
      = expectedRecords demoWorld defaultOptions
          [Entry.mk "a.txt" "/data/a.txt", Entry.mk "b.png" "/data/b.png"] := by
  have t := c4_success_archive demoWorld defaultOptions
    [Entry.mk "a.txt" "/data/a.txt", Entry.mk "b.png" "/data/b.png"] rfl
    (by
      intro e he hf
      rcases List.mem_cons.mp he with rfl | he2
      · exact ⟨"/data/a.txt", rfl, [([104, 105], .ok)], some 11, rfl, by decide⟩
      rcases List.mem_cons.mp he2 with rfl | he3
      · exact ⟨"/data/b.png", rfl, [([1, 2], .ok)], none, rfl, by decide⟩
      · simp at he3)
    rfl rfl
  exact ⟨t.1, t.2.1⟩

/-! ### Claim C7 -/

/-- Options with skip-missing enabled, used by the C7 witness. -/
def skipOptions : OptionsM := { defaultOptions with SkipMissing := true }

/-- C7: with skip-missing enabled, a filter-passing entry whose source does
not exist is skipped silently (it contributes no archive record) and the
operation succeeds with exactly the other entries' records; whereas at any
point of the loop an open failure with a different cause is fatal
immediately, as is a missing source when skip-missing is disabled. -/
theorem c7_skip_missing (w : World) (o : OptionsM) (entries : List Entry)
    (hval : validateEntries entries = none) (hskip : o.SkipMissing = true)
    (hz : w.closeZipFails = false) (hb : w.closeB64Fails = false)
    (hsrc : ∀ e ∈ entries, passesFilter o.Filter e = true →
      ∃ p, resolvePath w o e.Path = .ok p ∧
        (w.fs p = .notExist ∨
         ∃ reads mtime, w.fs p = .file reads mtime ∧ ∀ c ∈ reads, c.2 = RRes.ok)) :
    ((StreamZipToBase64Writer w none entries (some o)).err = none ∧
     (StreamZipToBase64Writer w none entries (some o)).records
       = expectedRecords w o entries) ∧
    (∀ (w2 : World) (o2 : OptionsM) (fuel : Option Nat) (e : Entry) (rest : List Entry)
        (opened : List String) (records : List ArchRecord) (p : String),
      fuel ≠ some 0 → passesFilter o2.Filter e = true →
      resolvePath w2 o2 e.Path = .ok p → w2.fs p = .otherErr →
      zipLoop w2 o2 fuel (e :: rest) opened records
        = ⟨some (.openFailedOther p), opened ++ [p], records⟩) ∧
    (∀ (w2 : World) (o2 : OptionsM) (fuel : Option Nat) (e : Entry) (rest : List Entry)
        (opened : List String) (records : List ArchRecord) (p : String),
      fuel ≠ some 0 → o2.SkipMissing = false → passesFilter o2.Filter e = true →
      resolvePath w2 o2 e.Path = .ok p → w2.fs p = .notExist →
      zipLoop w2 o2 fuel (e :: rest) opened records
        = ⟨some (.openFailedNotExist p), opened ++ [p], records⟩) := by
  refine ⟨?_, ?_, ?_⟩
  · have hloop := zipLoop_ok_general w o entries [] [] (by
      intro e he hf
      obtain ⟨p, h1, hc⟩ := hsrc e he hf
      rcases hc with hne | hfile
      · exact ⟨p, h1, Or.inl ⟨hne, hskip⟩⟩
      · exact ⟨p, h1, Or.inr hfile⟩)
    constructor
    · simp [StreamZipToBase64Writer, hval, hz, hb, hloop.1]
    · simp [StreamZipToBase64Writer, hval, hz, hb, hloop.1, hloop.2]
  · intro w2 o2 fuel e rest opened records p hfuel hf hp hfs
    rcases fuel with _ | n
    · simp [zipLoop, hf, hp, hfs, decFuel]
    · rcases n with _ | n
      · exact absurd rfl hfuel
      · simp [zipLoop, hf, hp, hfs, decFuel]
  · intro w2 o2 fuel e rest opened records p hfuel hsm hf hp hfs
    rcases fuel with _ | n
    · simp [zipLoop, hf, hp, hfs, hsm, decFuel]
    · rcases n with _ | n
      · exact absurd rfl hfuel
      · simp [zipLoop, hf, hp, hfs, hsm, decFuel]

/-- Witness for C7: one existing and one missing source with skip-missing
on, plus concrete fatal open failures. -/
theorem c7_skip_missing_witness :
    ((StreamZipToBase64Writer demoWorld none
        [Entry.mk "a.txt" "/data/a.txt", Entry.mk "m.txt" "/data/nope"]
        (some skipOptions)).err = none ∧
     (StreamZipToBase64Writer demoWorld none
        [Entry.mk "a.txt" "/data/a.txt", Entry.mk "m.txt" "/data/nope"]
        (some skipOptions)).records
       = expectedRecords demoWorld skipOptions
           [Entry.mk "a.txt" "/data/a.txt", Entry.mk "m.txt" "/data/nope"]) ∧
    zipLoop demoWorld skipOptions none [Entry.mk "x" "/data/locked"] [] []
      = ⟨some (.openFailedOther "/data/locked"), ["/data/locked"], []⟩ ∧
    zipLoop demoWorld defaultOptions none [Entry.mk "x" "/data/nope"] [] []
      = ⟨some (.openFailedNotExist "/data/nope"), ["/data/nope"], []⟩ := by
  have t := c7_skip_missing demoWorld skipOptions
    [Entry.mk "a.txt" "/data/a.txt", Entry.mk "m.txt" "/data/nope"]
    rfl rfl rfl rfl
    (by
      intro e he hf
      rcases List.mem_cons.mp he with rfl | he2
      · exact ⟨"/data/a.txt", rfl, Or.inr ⟨[([104, 105], .ok)], some 11, rfl, by decide⟩⟩
      rcases List.mem_cons.mp he2 with rfl | he3
      · exact ⟨"/data/nope", rfl, Or.inl rfl⟩
      · simp at he3)
  exact ⟨t.1,
    t.2.1 demoWorld skipOptions none (Entry.mk "x" "/data/locked") [] [] []
      "/data/locked" (by simp) rfl rfl rfl,
    t.2.2 demoWorld defaultOptions none (Entry.mk "x" "/data/nope") [] [] []
      "/data/nope" (by simp) rfl rfl rfl rfl⟩

/-! ### Lemmas about the path primitives (towards claim C3) -/

theorem startsList_append_cancel : ∀ (l a b : List Char),
    startsList (l ++ a) (l ++ b) = startsList a b := by
  intro l
  induction l with
  | nil => intro a b; rfl
  | cons c t ih => intro a b; simp [startsList, ih]

theorem startsList_mem : ∀ (hay needle : List Char),
    startsList hay needle = true → ∀ x ∈ needle, x ∈ hay := by
  intro hay
  induction hay with
  | nil =>
    intro needle h x hx
    cases needle with
    | nil => simp at hx
    | cons n ns => simp [startsList] at h
  | cons c t ih =>
    intro needle h x hx
    cases needle with
    | nil => simp at hx
    | cons n ns =>
      simp only [startsList] at h
      by_cases hc : c = n
      · rw [if_pos hc] at h
        rcases List.mem_cons.mp hx with rfl | hx'
        · exact hc ▸ List.mem_cons_self _ _
        · exact List.mem_cons_of_mem _ (ih ns h x hx')
      · rw [if_neg hc] at h; exact absurd h (by simp)

theorem startsList_append_self : ∀ (a r : List Char), startsList (a ++ r) a = true := by
  intro a
  induction a with
  | nil => intro r; cases r <;> rfl
  | cons c t ih => intro r; simp [startsList, ih]

theorem splitSlash_ne_nil : ∀ s : List Char, splitSlash s ≠ [] := by
  intro s
  cases s with
  | nil => simp [splitSlash]
  | cons c rest =>
    simp only [splitSlash]
    by_cases hc : c = '/'
    · rw [if_pos hc]; simp
    · rw [if_neg hc]
      rcases hsp : splitSlash rest with _ | ⟨h, t⟩ <;> simp

theorem splitSlash_no_slash : ∀ (s : List Char), ∀ c ∈ splitSlash s, '/' ∉ c := by
  intro s
  induction s with
  | nil => intro c hc; simp [splitSlash] at hc; simp [hc]
  | cons a rest ih =>
    intro c hc
    simp only [splitSlash] at hc
    by_cases ha : a = '/'
    · rw [if_pos ha] at hc
      rcases List.mem_cons.mp hc with rfl | hc'
      · simp
      · exact ih c hc'
    · rw [if_neg ha] at hc
      rcases hsp : splitSlash rest with _ | ⟨h, t⟩
      · exact absurd hsp (splitSlash_ne_nil rest)
      · rw [hsp] at hc
        rcases List.mem_cons.mp hc with rfl | hc'
        · intro hmem
          rcases List.mem_cons.mp hmem with heq | hmem'
          · exact ha heq.symm
          · exact ih h (hsp ▸ List.mem_cons_self _ _) hmem'
        · exact ih c (hsp ▸ List.mem_cons_of_mem _ hc')

theorem splitSlash_append : ∀ (a b : List Char),
    splitSlash (a ++ '/' :: b) = splitSlash a ++ splitSlash b := by
  intro a
  induction a with
  | nil => intro b; simp [splitSlash]
  | cons c t ih =>
    intro b
    show splitSlash (c :: (t ++ '/' :: b)) = _
    by_cases hc : c = '/'
    · simp only [splitSlash, if_pos hc, ih]; rfl
    · simp only [splitSlash, if_neg hc, ih]
      rcases hsp : splitSlash t with _ | ⟨h, r⟩
      · exact absurd hsp (splitSlash_ne_nil t)
      · simp

theorem joinSlash_concat : ∀ (D : List (List Char)) (x : List Char), D ≠ [] →
    joinSlash (D ++ [x]) = joinSlash D ++ '/' :: x := by
  intro D
  induction D with
  | nil => intro x h; exact absurd rfl h
  | cons c t ih =>
    intro x _
    cases t with
    | nil => rfl
    | cons c2 r =>
      have h2 := ih x (by simp)
      show joinSlash (c :: ((c2 :: r) ++ [x])) = _
      have hsh : joinSlash (c :: ((c2 :: r) ++ [x]))
          = c ++ '/' :: joinSlash ((c2 :: r) ++ [x]) := rfl
      rw [hsh, h2]
      simp [joinSlash, List.append_assoc]

theorem splitSlash_no_sep : ∀ c : List Char, '/' ∉ c → splitSlash c = [c] := by
  intro c
  induction c with
  | nil => intro _; rfl
  | cons a r ih =>
    intro h
    have ha : a ≠ '/' := fun he => h (he ▸ List.mem_cons_self _ _)
    have hr := ih (fun hm => h (List.mem_cons_of_mem _ hm))
    simp only [splitSlash, if_neg ha, hr]

theorem splitSlash_joinSlash : ∀ (S : List (List Char)), S ≠ [] →
    (∀ c ∈ S, c ≠ [] ∧ '/' ∉ c) → splitSlash (joinSlash S) = S := by
  intro S
  induction S with
  | nil => intro h; exact absurd rfl h
  | cons c t ih =>
    intro _ hS
    have hc := hS c (List.mem_cons_self _ _)
    cases t with
    | nil => exact splitSlash_no_sep c hc.2
    | cons c2 r =>
      have hrest := ih (by simp) (fun x hx => hS x (List.mem_cons_of_mem _ hx))
      simp only [joinSlash, splitSlash_append, splitSlash_no_sep c hc.2, hrest]
      rfl

/-- A plain component: what a rooted clean stack may contain. -/
def plainComp (c : List Char) : Prop :=
  c ≠ [] ∧ c ≠ ['.'] ∧ c ≠ ['.', '.'] ∧ '/' ∉ c

/-- A relative clean stack's elements: nonempty, not `"."`, slash-free
(but possibly `".."`). -/
def noED (S : List (List Char)) : Prop :=
  ∀ c ∈ S, c ≠ [] ∧ c ≠ ['.'] ∧ '/' ∉ c

theorem cleanStep_push (rooted : Bool) (st : List (List Char)) (c : List Char)
    (h1 : c ≠ []) (h2 : c ≠ ['.']) (h3 : c ≠ ['.', '.']) :
    cleanStep rooted st c = st ++ [c] := by
  simp [cleanStep, h1, h2, h3]

theorem cleanStep_skip (rooted : Bool) (st : List (List Char)) (c : List Char)
    (h : c = [] ∨ c = ['.']) : cleanStep rooted st c = st := by
  simp [cleanStep, h]

theorem cleanStep_dd_last (rooted : Bool) (st : List (List Char)) (l : List Char)
    (hgl : st.getLast? = some l) (h3 : l ≠ ['.', '.']) :
    cleanStep rooted st ['.', '.'] = st.dropLast := by
  simp [cleanStep, hgl, h3]

theorem cleanStep_dd_lastdd (rooted : Bool) (st : List (List Char))
    (hgl : st.getLast? = some ['.', '.']) :
    cleanStep rooted st ['.', '.'] = st ++ [['.', '.']] := by
  simp [cleanStep, hgl]

theorem foldT_plain_refold : ∀ (S : List (List Char)) (acc : List (List Char)),
    (∀ c ∈ S, plainComp c) →
    List.foldl (cleanStep true) acc S = acc ++ S := by
  intro S
  induction S with
  | nil => intro acc _; simp
  | cons c t ih =>
    intro acc h
    have hc := h c (List.mem_cons_self _ _)
    simp only [List.foldl_cons]
    rw [cleanStep_push true acc c hc.1 hc.2.1 hc.2.2.1,
      ih _ (fun x hx => h x (List.mem_cons_of_mem _ hx))]
    simp

theorem getLast?_some_mem {st : List (List Char)} {l : List Char}
    (hgl : st.getLast? = some l) : l ∈ st := by
  rcases List.eq_nil_or_concat st with rfl | ⟨D, x, rfl⟩
  · cases hgl
  · simp only [List.concat_eq_append] at hgl ⊢
    rw [List.getLast?_concat] at hgl
    injection hgl with h
    subst h
    simp

theorem getLast?_some_concat {st : List (List Char)} {l : List Char}
    (hgl : st.getLast? = some l) : ∃ D, st = D ++ [l] := by
  rcases List.eq_nil_or_concat st with rfl | ⟨D, x, rfl⟩
  · cases hgl
  · simp only [List.concat_eq_append] at hgl ⊢
    rw [List.getLast?_concat] at hgl
    injection hgl with h
    subst h
    exact ⟨D, rfl⟩

theorem stepT_keeps_plain (st : List (List Char)) (c : List Char)
    (hst : ∀ x ∈ st, plainComp x) (hc : '/' ∉ c) :
    ∀ x ∈ cleanStep true st c, plainComp x := by
  by_cases h1 : c = [] ∨ c = ['.']
  · rw [cleanStep_skip true st c h1]; exact hst
  · push_neg at h1
    by_cases h2 : c = ['.', '.']
    · subst h2
      rcases hgl : st.getLast? with _ | l
      · have hst0 : st = [] := by
          rcases List.eq_nil_or_concat st with rfl | ⟨D, x, rfl⟩
          · rfl
          · simp only [List.concat_eq_append] at hgl
            rw [List.getLast?_concat] at hgl; cases hgl
        subst hst0
        intro x hx
        simp [cleanStep] at hx
      · have hpl := hst l (getLast?_some_mem hgl)
        rw [cleanStep_dd_last true st l hgl hpl.2.2.1]
        exact fun x hx => hst x ((List.dropLast_prefix st).subset hx)
    · rw [cleanStep_push true st c h1.1 h1.2 h2]
      intro x hx
      rcases List.mem_append.mp hx with hx' | hx'
      · exact hst x hx'
      · rcases List.mem_singleton.mp hx' with rfl
        exact ⟨h1.1, h1.2, h2, hc⟩

theorem foldT_keeps_plain : ∀ (cs : List (List Char)) (st : List (List Char)),
    (∀ c ∈ cs, '/' ∉ c) → (∀ x ∈ st, plainComp x) →
    ∀ x ∈ List.foldl (cleanStep true) st cs, plainComp x := by
  intro cs
  induction cs with
  | nil => intro st _ hst; simpa using hst
  | cons c t ih =>
    intro st hcs hst
    simp only [List.foldl_cons]
    exact ih _ (fun x hx => hcs x (List.mem_cons_of_mem _ hx))
      (stepT_keeps_plain st c hst (hcs c (List.mem_cons_self _ _)))

theorem stepF_keeps_noED (st : List (List Char)) (c : List Char)
    (hst : noED st) (hc : '/' ∉ c) : noED (cleanStep false st c) := by
  by_cases h1 : c = [] ∨ c = ['.']
  · rw [cleanStep_skip false st c h1]; exact hst
  · push_neg at h1
    by_cases h2 : c = ['.', '.']
    · subst h2
      rcases hgl : st.getLast? with _ | l
      · have hst0 : st = [] := by
          rcases List.eq_nil_or_concat st with rfl | ⟨D, x, rfl⟩
          · rfl
          · simp only [List.concat_eq_append] at hgl
            rw [List.getLast?_concat] at hgl; cases hgl
        subst hst0
        intro x hx
        rcases List.mem_singleton.mp (by simpa [cleanStep] using hx) with rfl
        exact ⟨by simp, by simp, by decide⟩
      · by_cases h3 : l = ['.', '.']
        · subst h3
          rw [cleanStep_dd_lastdd false st hgl]
          intro x hx
          rcases List.mem_append.mp hx with hx' | hx'
          · exact hst x hx'
          · rcases List.mem_singleton.mp hx' with rfl
            exact ⟨by simp, by simp, by decide⟩
        · rw [cleanStep_dd_last false st l hgl h3]
          exact fun x hx => hst x ((List.dropLast_prefix st).subset hx)
    · rw [cleanStep_push false st c h1.1 h1.2 h2]
      intro x hx
      rcases List.mem_append.mp hx with hx' | hx'
      · exact hst x hx'
      · rcases List.mem_singleton.mp hx' with rfl
        exact ⟨h1.1, h1.2, hc⟩

theorem foldF_noED : ∀ (cs : List (List Char)) (st : List (List Char)),
    noED st → (∀ c ∈ cs, '/' ∉ c) →
    noED (List.foldl (cleanStep false) st cs) := by
  intro cs
  induction cs with
  | nil => intro st hst _; simpa using hst
  | cons c t ih =>
    intro st hst hcs
    simp only [List.foldl_cons]
    exact ih _ (stepF_keeps_noED st c hst (hcs c (List.mem_cons_self _ _)))
      (fun x hx => hcs x (List.mem_cons_of_mem _ hx))

/-- Key simulation step: running the rooted fold over a relative stack
extended by one raw element equals extending the rooted fold by that
element. -/
theorem stepTF (st : List (List Char)) (c : List Char) (acc : List (List Char))
    (hst : noED st) :
    List.foldl (cleanStep true) acc (cleanStep false st c)
      = cleanStep true (List.foldl (cleanStep true) acc st) c := by
  by_cases h1 : c = [] ∨ c = ['.']
  · rw [cleanStep_skip false st c h1, cleanStep_skip true _ c h1]
  · push_neg at h1
    by_cases h2 : c = ['.', '.']
    · subst h2
      rcases hgl : st.getLast? with _ | l
      · have hst0 : st = [] := by
          rcases List.eq_nil_or_concat st with rfl | ⟨D, x, rfl⟩
          · rfl
          · simp only [List.concat_eq_append] at hgl
            rw [List.getLast?_concat] at hgl; cases hgl
        subst hst0
        rfl
      · have hEl := hst l (getLast?_some_mem hgl)
        by_cases h3 : l = ['.', '.']
        · rw [cleanStep_dd_lastdd false st (h3 ▸ hgl), List.foldl_append]
          rfl
        · obtain ⟨D, rfl⟩ := getLast?_some_concat hgl
          rw [cleanStep_dd_last false (D ++ [l]) l hgl h3, List.dropLast_concat,
            List.foldl_append]
          have hstep : List.foldl (cleanStep true) (List.foldl (cleanStep true) acc D) [l]
              = List.foldl (cleanStep true) acc D ++ [l] := by
            simp only [List.foldl_cons, List.foldl_nil]
            exact cleanStep_push true _ l hEl.1 hEl.2.1 h3
          rw [hstep, cleanStep_dd_last true _ l (List.getLast?_concat _) h3,
            List.dropLast_concat]
    · rw [cleanStep_push false st c h1.1 h1.2 h2, List.foldl_append]
      rfl

/-- Folding the rooted step over the result of the relative clean equals
folding it over the raw components. -/
theorem foldTF : ∀ (Y : List (List Char)) (st acc : List (List Char)),
    noED st → (∀ c ∈ Y, '/' ∉ c) →
    List.foldl (cleanStep true) acc (List.foldl (cleanStep false) st Y)
      = List.foldl (cleanStep true) (List.foldl (cleanStep true) acc st) Y := by
  intro Y
  induction Y with
  | nil => intro st acc _ _; rfl
  | cons c t ih =>
    intro st acc hst hY
    simp only [List.foldl_cons]
    rw [ih (cleanStep false st c) acc
      (stepF_keeps_noED st c hst (hY c (List.mem_cons_self _ _)))
      (fun x hx => hY x (List.mem_cons_of_mem _ hx))]
    rw [stepTF st c acc hst]

theorem isAbsChars_append (a b : List Char) (ha : a ≠ []) :
    isAbsChars (a ++ b) = isAbsChars a := by
  cases a with
  | nil => exact absurd rfl ha
  | cons c t => rfl

theorem data_eq_nil_iff (s : String) : s.data = [] ↔ s = "" := by
  constructor
  · intro h
    exact String.ext h
  · intro h
    rw [h]

theorem clean_rooted_eq (s : List Char) (h : isAbsChars s = true) :
    cleanChars s = '/' :: joinSlash (List.foldl (cleanStep true) [] (splitSlash s)) := by
  simp [cleanChars, h]

theorem joinSlash_ne_nil (S : List (List Char)) (hne : S ≠ [])
    (h : ∀ c ∈ S, c ≠ []) : joinSlash S ≠ [] := by
  cases S with
  | nil => exact absurd rfl hne
  | cons c t =>
    cases t with
    | nil => exact h c (List.mem_cons_self _ _)
    | cons c2 r => simp [joinSlash]

theorem joinSlash_nonroot (S : List (List Char)) (hne : S ≠ []) (hED : noED S) :
    isAbsChars (joinSlash S) = false := by
  cases S with
  | nil => exact absurd rfl hne
  | cons c t =>
    have hc := hED c (List.mem_cons_self _ _)
    rcases hcd : c with _ | ⟨a, r⟩
    · exact absurd hcd hc.1
    have ha : a ≠ '/' := by
      intro h
      exact hc.2.2 (hcd ▸ (h ▸ List.mem_cons_self _ _))
    cases t with
    | nil => simp [joinSlash, isAbsChars, ha]
    | cons c2 r2 => simp [joinSlash, isAbsChars, ha]

theorem foldF_of_split_noED (s : List Char) :
    noED (List.foldl (cleanStep false) [] (splitSlash s)) :=
  foldF_noED (splitSlash s) [] (by intro c hc; simp at hc) (splitSlash_no_slash s)

theorem clean_ne_nil (s : List Char) : cleanChars s ≠ [] := by
  by_cases habs : isAbsChars s = true
  · rw [clean_rooted_eq s habs]; simp
  · have hED := foldF_of_split_noED s
    rcases hst : List.foldl (cleanStep false) [] (splitSlash s) with _ | ⟨c, t⟩
    · simp [cleanChars, habs, hst]
    · have : cleanChars s = joinSlash (c :: t) := by
        simp [cleanChars, habs, hst]
      rw [this]
      exact joinSlash_ne_nil _ (by simp)
        (fun x hx => (hED x (hst ▸ hx)).1)

theorem clean_nonrooted (s : List Char) (h : isAbsChars s = false) :
    isAbsChars (cleanChars s) = false := by
  have hED := foldF_of_split_noED s
  rcases hst : List.foldl (cleanStep false) [] (splitSlash s) with _ | ⟨c, t⟩
  · have : cleanChars s = ['.'] := by simp [cleanChars, h, hst]
    rw [this]; rfl
  · have : cleanChars s = joinSlash (c :: t) := by simp [cleanChars, h, hst]
    rw [this]
    exact joinSlash_nonroot _ (by simp) (fun x hx => hED x (hst ▸ hx))

/-- The component stack of `absGo cwd s`, as a function of the raw
character data. -/
def absCompsD (cwd : String) (d : List Char) : List (List Char) :=
  List.foldl (cleanStep true) []
    (if isAbsChars d then splitSlash d else splitSlash cwd.data ++ splitSlash d)

/-- The component stack of `absGo cwd s`. -/
def absComps (cwd s : String) : List (List Char) := absCompsD cwd s.data

theorem absCompsD_plain (cwd : String) (d : List Char) :
    ∀ x ∈ absCompsD cwd d, plainComp x := by
  unfold absCompsD
  split
  · exact foldT_keeps_plain _ [] (splitSlash_no_slash d) (by intro x hx; simp at hx)
  · refine foldT_keeps_plain _ [] ?_ (by intro x hx; simp at hx)
    intro c hc
    rcases List.mem_append.mp hc with h | h
    · exact splitSlash_no_slash _ c h
    · exact splitSlash_no_slash _ c h

theorem isAbs_ne_empty (s : String) (h : isAbsGo s = true) : s ≠ "" := by
  intro he
  rw [he] at h
  exact absurd h (by decide)

theorem absGo_data (cwd s : String) (hcwd : isAbsGo cwd = true) (hs : s ≠ "") :
    (absGo cwd s).data = '/' :: joinSlash (absComps cwd s) := by
  have hcd : cwd.data ≠ [] := fun h => isAbs_ne_empty cwd hcwd ((data_eq_nil_iff cwd).mp h)
  by_cases habs : isAbsChars s.data = true
  · have : absGo cwd s = cleanStr s := by simp [absGo, isAbsGo, habs]
    rw [this]
    show cleanChars s.data = _
    rw [clean_rooted_eq s.data habs]
    simp [absComps, absCompsD, habs]
  · have habs' : isAbsGo s = false := by simpa [isAbsGo] using habs
    have : absGo cwd s = cleanStr ⟨cwd.data ++ '/' :: s.data⟩ := by
      simp [absGo, habs', joinGo, isAbs_ne_empty cwd hcwd, hs]
    rw [this]
    show cleanChars (cwd.data ++ '/' :: s.data) = _
    have hroot : isAbsChars (cwd.data ++ '/' :: s.data) = true := by
      rw [isAbsChars_append _ _ hcd]
      exact hcwd
    rw [clean_rooted_eq _ hroot, splitSlash_append]
    simp [absComps, absCompsD, habs]

theorem absGo_isAbs (cwd s : String) (hcwd : isAbsGo cwd = true) (hs : s ≠ "") :
    isAbsGo (absGo cwd s) = true := by
  have := absGo_data cwd s hcwd hs
  rw [isAbsGo, this]
  rfl

theorem joinGo_ne_empty (b r : String) (hb : b ≠ "") : joinGo b r ≠ "" := by
  by_cases hr : r = ""
  · subst hr
    simp only [joinGo, if_neg hb, if_pos rfl]
    intro h
    exact clean_ne_nil b.data ((data_eq_nil_iff _).mpr h ▸ (data_eq_nil_iff (cleanStr b)).mpr h)
  · simp only [joinGo, if_neg hb, if_neg hr]
    intro h
    exact clean_ne_nil _ ((data_eq_nil_iff (cleanStr ⟨b.data ++ '/' :: r.data⟩)).mpr h)

/-- Composition lemma: the component stack of `Abs(cwd, Join(base, rel))`
is the stack of `Abs(cwd, base)` extended by `rel`'s raw components. -/
theorem absComps_join (cwd base rel : String) (_hcwd : isAbsGo cwd = true)
    (hb : base ≠ "") (hr : rel ≠ "") :
    absComps cwd (joinGo base rel)
      = List.foldl (cleanStep true) (absComps cwd base) (splitSlash rel.data) := by
  have hbd : base.data ≠ [] := fun h => hb ((data_eq_nil_iff base).mp h)
  have hXdef : joinGo base rel = cleanStr ⟨base.data ++ '/' :: rel.data⟩ := by
    simp [joinGo, hb, hr]
  have hsplit : splitSlash (base.data ++ '/' :: rel.data)
      = splitSlash base.data ++ splitSlash rel.data := splitSlash_append _ _
  have hXslash : ∀ c ∈ splitSlash (base.data ++ '/' :: rel.data), '/' ∉ c :=
    splitSlash_no_slash _
  rw [hXdef]
  show absCompsD cwd (cleanChars (base.data ++ '/' :: rel.data)) = _
  by_cases habs : isAbsChars base.data = true
  · -- rooted base: the joined path is rooted and pre-cleaned
    have hXr : isAbsChars (base.data ++ '/' :: rel.data) = true := by
      rw [isAbsChars_append _ _ hbd]; exact habs
    have hS : ∀ x ∈ List.foldl (cleanStep true) []
        (splitSlash (base.data ++ '/' :: rel.data)), plainComp x :=
      foldT_keeps_plain _ [] hXslash (by intro x hx; simp at hx)
    rw [clean_rooted_eq _ hXr]
    rcases hstc : List.foldl (cleanStep true) []
        (splitSlash (base.data ++ '/' :: rel.data)) with _ | ⟨c0, t0⟩
    · -- stack empty: the cleaned string is "/"
      have h1 : absCompsD cwd ('/' :: joinSlash ([] : List (List Char))) = [] := rfl
      rw [h1]
      rw [← hstc, hsplit, List.foldl_append]
      simp [absComps, absCompsD, habs]
    · have hSne := hstc ▸ hS
      have h2 : splitSlash ('/' :: joinSlash (c0 :: t0))
          = [] :: splitSlash (joinSlash (c0 :: t0)) := by
        simp [splitSlash]
      have h3 : splitSlash (joinSlash (c0 :: t0)) = c0 :: t0 :=
        splitSlash_joinSlash _ (by simp)
          (fun x hx => ⟨(hSne x hx).1, (hSne x hx).2.2.2⟩)
      have h4 : isAbsChars ('/' :: joinSlash (c0 :: t0)) = true := rfl
      show List.foldl (cleanStep true) [] _ = _
      rw [if_pos h4, h2, h3]
      have h5 : List.foldl (cleanStep true) [] ([] :: c0 :: t0)
          = List.foldl (cleanStep true) [] (c0 :: t0) := rfl
      rw [h5, foldT_plain_refold (c0 :: t0) [] hSne]
      rw [← hstc, hsplit, List.foldl_append]
      simp [absComps, absCompsD, habs]
  · -- relative base: the joined path is relative
    have habs0 : isAbsChars base.data = false := by
      revert habs; cases isAbsChars base.data <;> simp
    have hXnr : isAbsChars (base.data ++ '/' :: rel.data) = false := by
      rw [isAbsChars_append _ _ hbd]; exact habs0
    have hED : noED (List.foldl (cleanStep false) []
        (splitSlash (base.data ++ '/' :: rel.data))) :=
      foldF_of_split_noED _
    have hA : absComps cwd base
        = List.foldl (cleanStep true) (List.foldl (cleanStep true) [] (splitSlash cwd.data))
            (splitSlash base.data) := by
      simp [absComps, absCompsD, habs0, List.foldl_append]
    have hTF : List.foldl (cleanStep true)
        (List.foldl (cleanStep true) [] (splitSlash cwd.data))
        (List.foldl (cleanStep false) [] (splitSlash (base.data ++ '/' :: rel.data)))
          = List.foldl (cleanStep true)
              (List.foldl (cleanStep true) [] (splitSlash cwd.data))
              (splitSlash (base.data ++ '/' :: rel.data)) := by
      rw [foldTF _ [] _ (by intro x hx; simp at hx) hXslash]
      rfl
    rcases hstc : List.foldl (cleanStep false) []
        (splitSlash (base.data ++ '/' :: rel.data)) with _ | ⟨c0, t0⟩
    · -- relative clean collapsed to "."
      have hdot : cleanChars (base.data ++ '/' :: rel.data) = ['.'] := by
        simp [cleanChars, hXnr, hstc]
      rw [hdot]
      have h1 : absCompsD cwd ['.']
          = List.foldl (cleanStep true) [] (splitSlash cwd.data ++ [['.']]) := rfl
      rw [h1, List.foldl_append]
      have h2 : List.foldl (cleanStep true)
          (List.foldl (cleanStep true) [] (splitSlash cwd.data)) [['.']]
            = List.foldl (cleanStep true) [] (splitSlash cwd.data) := by
        simp only [List.foldl_cons, List.foldl_nil]
        exact cleanStep_skip true _ _ (Or.inr rfl)
      rw [h2, hA, ← List.foldl_append, ← hsplit, ← hTF, hstc]
      rfl
    · -- relative clean produced a nonempty stack
      have hEDc := hstc ▸ hED
      have hjs : cleanChars (base.data ++ '/' :: rel.data) = joinSlash (c0 :: t0) := by
        simp [cleanChars, hXnr, hstc]
      rw [hjs]
      have hnr : isAbsChars (joinSlash (c0 :: t0)) = false :=
        joinSlash_nonroot _ (by simp) hEDc
      have h3 : splitSlash (joinSlash (c0 :: t0)) = c0 :: t0 :=
        splitSlash_joinSlash _ (by simp)
          (fun x hx => ⟨(hEDc x hx).1, (hEDc x hx).2.2⟩)
      show List.foldl (cleanStep true) [] _ = _
      rw [if_neg (by simp [hnr]), h3, List.foldl_append, ← hstc, hTF, hsplit,
        List.foldl_append, ← hA]

theorem startsList_cons_cons (c : Char) (x y : List Char) :
    startsList (c :: x) (c :: y) = startsList x y := by
  simp [startsList]

theorem startsList_single_ne (a c : Char) (t : List Char) (h : a ≠ c) :
    startsList (a :: t) [c] = false := by
  simp [startsList, h]

theorem startsList_false_of_no_slash (q P : List Char) (hq : '/' ∉ q) :
    startsList q (P ++ ['/']) = false := by
  cases hS : startsList q (P ++ ['/']) with
  | false => rfl
  | true => exact absurd (startsList_mem _ _ hS '/' (by simp)) hq

theorem js_concat_inj (D : List (List Char)) (x y : List Char)
    (h : joinSlash (D ++ [x]) = joinSlash (D ++ [y])) : x = y := by
  cases D with
  | nil => simpa [joinSlash] using h
  | cons c t =>
    rw [joinSlash_concat _ x (by simp), joinSlash_concat _ y (by simp)] at h
    have h2 := List.append_cancel_left h
    injection h2

theorem rev_head_concat (D : List (List Char)) (p : List Char) (hp : p ≠ []) :
    ∃ a r, (joinSlash (D ++ [p])).reverse = a :: r ∧ a ∈ p := by
  obtain ⟨a, r0, hrev0, ha⟩ : ∃ a r0, p.reverse = a :: r0 ∧ a ∈ p := by
    rcases hq : p.reverse with _ | ⟨a, r0⟩
    · rw [List.reverse_eq_nil_iff] at hq
      exact absurd hq hp
    · exact ⟨a, r0, rfl, by rw [← List.mem_reverse, hq]; simp⟩
  cases D with
  | nil =>
    refine ⟨a, r0, ?_, ha⟩
    have : joinSlash ([] ++ [p]) = p := by simp [joinSlash]
    rw [this, hrev0]
  | cons c t =>
    rw [joinSlash_concat (c :: t) p (by simp), List.reverse_append,
      List.reverse_cons, hrev0]
    exact ⟨a, r0 ++ ['/'] ++ (joinSlash (c :: t)).reverse, by simp, ha⟩

/-- Evaluation shape of `SafeJoin` for a nonempty base. -/
theorem SafeJoin_eval (cwd base rel : String) (hb : base ≠ "") :
    SafeJoin cwd base rel =
      if absGo cwd (joinGo base rel) ≠ absGo cwd base ∧
          ¬ (startsList (absGo cwd (joinGo base rel)).data
            ((if hasSuffixGo (absGo cwd base) "/" then absGo cwd base
              else absGo cwd base ++ "/").data) = true)
      then .error (.escape rel) else .ok (absGo cwd (joinGo base rel)) := by
  simp [SafeJoin, hb]

/-- The core of the amended C3 third part: with a canonical base that is
not the root and does not end in a `secret` component, joining `"../secret"`
fails with the path-escape error. -/
theorem safejoin_dotdot_secret (cwd base : String) (hcwd : isAbsGo cwd = true)
    (hb : base ≠ "") (hroot : absGo cwd base ≠ "/")
    (hsuf : hasSuffixGo (absGo cwd base) "/secret" = false) :
    SafeJoin cwd base "../secret" = .error (.escape "../secret") := by
  have hBp := absCompsD_plain cwd base.data
  have hAdata0 : (absGo cwd base).data = '/' :: joinSlash (absComps cwd base) :=
    absGo_data cwd base hcwd hb
  have hBne : absComps cwd base ≠ [] := by
    intro h
    apply hroot
    apply String.ext
    rw [hAdata0, h]
    rfl
  obtain ⟨D, p, hBeq⟩ : ∃ D p, absComps cwd base = D ++ [p] := by
    rcases List.eq_nil_or_concat (absComps cwd base) with h | ⟨D, p, h⟩
    · exact absurd h hBne
    · exact ⟨D, p, by simpa [List.concat_eq_append] using h⟩
  have hpP : plainComp p := by
    apply hBp
    show p ∈ absCompsD cwd base.data
    rw [show absCompsD cwd base.data = absComps cwd base from rfl, hBeq]
    simp
  have hAdata : (absGo cwd base).data = '/' :: joinSlash (D ++ [p]) := by
    rw [hAdata0, hBeq]
  have hArev : (absGo cwd base).data.reverse
      = (joinSlash (D ++ [p])).reverse ++ ['/'] := by
    rw [hAdata, List.reverse_cons]
  obtain ⟨a, r, hhead, hamem⟩ := rev_head_concat D p hpP.1
  have hanz : a ≠ '/' := fun h => hpP.2.2.2 (h ▸ hamem)
  have hnosl : hasSuffixGo (absGo cwd base) "/" = false := by
    show startsList (absGo cwd base).data.reverse ("/" : String).data.reverse = false
    rw [hArev, hhead]
    show startsList (a :: (r ++ ['/'])) ['/'] = false
    exact startsList_single_ne a '/' _ hanz
  have hpsec : p ≠ "secret".data := by
    intro hps
    suffices ht : hasSuffixGo (absGo cwd base) "/secret" = true by
      rw [ht] at hsuf; cases hsuf
    show startsList (absGo cwd base).data.reverse ("/secret" : String).data.reverse = true
    have h7 : ("/secret" : String).data.reverse = "secret".data.reverse ++ ['/'] := by decide
    rw [h7, hArev]
    cases D with
    | nil =>
      have h8 : joinSlash ([] ++ [p]) = p := by simp [joinSlash]
      rw [h8, hps]
      rw [show "secret".data.reverse ++ ['/']
        = ("secret".data.reverse ++ ['/']) ++ [] by simp]
      exact startsList_append_self _ _
    | cons c t =>
      rw [joinSlash_concat (c :: t) p (by simp), List.reverse_append,
        List.reverse_cons, hps, List.append_assoc]
      exact startsList_append_self _ _
  have hcombne : joinGo base "../secret" ≠ "" := joinGo_ne_empty base _ hb
  have hM := absComps_join cwd base "../secret" hcwd hb (by decide)
  have hsplitsec : splitSlash (("../secret" : String).data)
      = [['.', '.'], "secret".data] := by decide
  have hC : absComps cwd (joinGo base "../secret") = D ++ ["secret".data] := by
    rw [hM, hsplitsec, hBeq]
    simp only [List.foldl_cons, List.foldl_nil]
    rw [cleanStep_dd_last true _ p (List.getLast?_concat _) hpP.2.2.1,
      List.dropLast_concat,
      cleanStep_push true D _ (by decide) (by decide) (by decide)]
  have hCdata : (absGo cwd (joinGo base "../secret")).data
      = '/' :: joinSlash (D ++ ["secret".data]) := by
    rw [absGo_data cwd _ hcwd hcombne, hC]
  have hne : absGo cwd (joinGo base "../secret") ≠ absGo cwd base := by
    intro h
    have hd := congrArg String.data h
    rw [hCdata, hAdata] at hd
    injection hd with _ hd2
    exact hpsec (js_concat_inj D _ _ hd2).symm
  have hpre : startsList (absGo cwd (joinGo base "../secret")).data
      ((absGo cwd base).data ++ ['/']) = false := by
    rw [hCdata, hAdata]
    rw [List.cons_append, startsList_cons_cons]
    cases D with
    | nil =>
      have h8 : joinSlash ([] ++ [p]) = p := by simp [joinSlash]
      have h9 : joinSlash ([] ++ ["secret".data]) = "secret".data := by simp [joinSlash]
      rw [h8, h9]
      exact startsList_false_of_no_slash _ _ (by decide)
    | cons c t =>
      rw [joinSlash_concat (c :: t) p (by simp),
        joinSlash_concat (c :: t) "secret".data (by simp),
        List.append_assoc, List.cons_append, startsList_append_cancel,
        startsList_cons_cons]
      exact startsList_false_of_no_slash _ _ (by decide)
  rw [SafeJoin_eval cwd base "../secret" hb]
  have hnosl2 : ¬ (hasSuffixGo (absGo cwd base) "/" = true) := by simp [hnosl]
  rw [if_neg hnosl2, if_pos ⟨hne, by simp [hpre]⟩]

/-! ### Claim C3 -/

/-- C3 counterexample: with base directory `"/"` (non-empty), the relative
path `"../secret"` resolves to `"/secret"` without any error, against the
claim that `"../secret"` always fails. -/
theorem c3_counterexample : SafeJoin "/root" "/" "../secret" = .ok "/secret" := rfl

/-- C3 (amended): an empty base directory short-circuits to the relative
path unchanged; for every non-empty base directory, `SafeJoin` either
fails with the path-escape error or returns an absolute path equal to the
canonical base or extending it past a path separator (the source's
`baseWithSep`); and `"../secret"` fails whenever the canonical base is not
the filesystem root and does not end in a `/secret` component.  The working
directory feeding `filepath.Abs` is assumed absolute, as `os.Getwd`
guarantees. -/
theorem c3_safejoin_guarantee (cwd base rel : String) (hcwd : isAbsGo cwd = true) :
    (SafeJoin cwd "" rel = .ok rel) ∧
    (base ≠ "" →
      SafeJoin cwd base rel = .error (.escape rel) ∨
      ∃ p, SafeJoin cwd base rel = .ok p ∧ isAbsGo p = true ∧
        (p = absGo cwd base ∨
         startsList p.data
           ((if hasSuffixGo (absGo cwd base) "/" then absGo cwd base
             else absGo cwd base ++ "/").data) = true)) ∧
    (base ≠ "" → absGo cwd base ≠ "/" →
      hasSuffixGo (absGo cwd base) "/secret" = false →
      SafeJoin cwd base "../secret" = .error (.escape "../secret")) := by
  refine ⟨by simp [SafeJoin], ?_,
    fun hb h1 h2 => safejoin_dotdot_secret cwd base hcwd hb h1 h2⟩
  intro hb
  rw [SafeJoin_eval cwd base rel hb]
  by_cases hcond : (absGo cwd (joinGo base rel) ≠ absGo cwd base ∧
      ¬ (startsList (absGo cwd (joinGo base rel)).data
        ((if hasSuffixGo (absGo cwd base) "/" then absGo cwd base
          else absGo cwd base ++ "/").data) = true))
  · left; rw [if_pos hcond]
  · right
    refine ⟨absGo cwd (joinGo base rel), by rw [if_neg hcond],
      absGo_isAbs cwd _ hcwd (joinGo_ne_empty base rel hb), ?_⟩
    by_cases heq : absGo cwd (joinGo base rel) = absGo cwd base
    · exact Or.inl heq
    · right
      by_cases hS : startsList (absGo cwd (joinGo base rel)).data
          ((if hasSuffixGo (absGo cwd base) "/" then absGo cwd base
            else absGo cwd base ++ "/").data) = true
      · exact hS
      · exact absurd ⟨heq, hS⟩ hcond

/-- Witness for C3 at concrete inputs. -/
theorem c3_safejoin_guarantee_witness :
    SafeJoin "/root" "" "x" = .ok "x" ∧
    (SafeJoin "/root" "a" "x" = .error (.escape "x") ∨
      ∃ p, SafeJoin "/root" "a" "x" = .ok p ∧ isAbsGo p = true ∧
        (p = absGo "/root" "a" ∨
         startsList p.data
           ((if hasSuffixGo (absGo "/root" "a") "/" then absGo "/root" "a"
             else absGo "/root" "a" ++ "/").data) = true)) ∧
    SafeJoin "/root" "a" "../secret" = .error (.escape "../secret") :=
  ⟨(c3_safejoin_guarantee "/root" "a" "x" (by decide)).1,
   (c3_safejoin_guarantee "/root" "a" "x" (by decide)).2.1 (by decide),
   (c3_safejoin_guarantee "/root" "a" "../secret" (by decide)).2.2 (by decide)
     (by decide) (by decide)⟩

end FileStreamKit
